import Mathlib

/-!
Verification development for the DeepContext codebase serializer (src/app.py).

The program walks a directory tree, filters paths against built-in ignore
patterns plus an optional gitignore file, reads surviving files in a worker
pool, and aggregates them into a ProjectSummary rendered as Markdown.

Shallow embedding conventions used throughout:
* an absolute filesystem path is a `List String` of its segments
  (`/r/src/a.py` is `["r", "src", "a.py"]`, where the first segment names
  the root directory);
* file contents are Lean `String`s; a Python character is a Lean `Char`;
* machine integers of the program are `Nat` (all the program's integers
  are non-negative sizes and counts, and none approach overflow);
* Python functions that can raise return `Option`;
* the gitignore matching performed by the `pathspec` dependency
  (`GitWildMatchPattern` / `PathSpec.match_file`) is embedded segment-wise:
  a rule set is evaluated in declaration order and the most recently
  matching rule decides, a negated rule yielding the verdict "not matched".
-/

namespace DeepContext

/-! ## Basic string helpers -/

/-- Number of newline characters in a string (Python `content.count` of
the newline character). -/
def countNl (s : String) : Nat := s.data.count '\n'

/-- Helper for `readlines`: accumulates the current (reversed) line. -/
def readlinesAux : List Char → List Char → List (List Char)
  | [], acc => if acc.isEmpty then [] else [acc.reverse]
  | c :: rest, acc =>
    if c = '\n' then (acc.reverse ++ ['\n']) :: readlinesAux rest []
    else readlinesAux rest (c :: acc)

/-- Python `f.readlines()`: split text into lines, each keeping its
terminating newline; a final segment without a newline is kept as is. -/
def readlines (s : List Char) : List (List Char) := readlinesAux s []

/-- Python `l[-n:]`: the last `n` elements of a list (all of them when the
list is shorter). -/
def lastN (n : Nat) (l : List α) : List α := l.drop (l.length - n)

/-- Python `"".join(lines)`. -/
def joinChunks : List (List Char) → List Char
  | [] => []
  | c :: cs => c ++ joinChunks cs

/-- Python whitespace as stripped by `str.strip()`. -/
def isWsp (c : Char) : Bool :=
  c = ' ' || c = '\t' || c = '\n' || c = '\r' || c = '\x0b' || c = '\x0c'

/-- Python `str.strip()` on a character list. -/
def trimChars (cs : List Char) : List Char :=
  ((cs.dropWhile isWsp).reverse.dropWhile isWsp).reverse

/-- Helper for `splitSlash`. -/
def splitSlashAux : List Char → List Char → List (List Char)
  | [], acc => [acc.reverse]
  | c :: rest, acc =>
    if c = '/' then acc.reverse :: splitSlashAux rest []
    else splitSlashAux rest (c :: acc)

/-- Split a character list on the separator character of POSIX paths. -/
def splitSlash (cs : List Char) : List (List Char) := splitSlashAux cs []

/-- `str(p)` for an absolute POSIX path given as segments:
`["r", "a.py"]` renders as the string of `/r/a.py`. -/
def pathStr (p : List String) : String :=
  p.foldl (fun acc s => acc ++ "/" ++ s) ""

/-- `path.relative_to(root).as_posix()`: the root-relative path rendered
with separator characters between the segments. -/
def relString (root p : List String) : String :=
  String.intercalate "/" (p.drop root.length)

/-! ## Glob and gitignore pattern model (the pathspec dependency)

`pathspec.patterns.GitWildMatchPattern` compiles one gitignore line into a
regular expression over the root-relative path.  The embedding keeps the
structure segment-wise instead: a compiled pattern records negation,
directory-only applicability, anchoring, and the glob for each segment. -/

/-- One token of a single-segment glob. -/
inductive GTok where
  | lit : Char → GTok
  | star : GTok
  | qmark : GTok
deriving DecidableEq

/-- One segment of a compiled pattern: an ordinary glob or the
double-star segment that matches any number of directories. -/
inductive Seg where
  | glob : List GTok → Seg
  | dstar : Seg
deriving DecidableEq

/-- A compiled gitignore rule (pathspec `GitWildMatchPattern`):
negation marker, directory-only marker (trailing separator), anchoring
(a separator at the beginning or middle of the pattern), and the
per-segment globs. -/
structure GitPattern where
  negated : Bool
  dirOnly : Bool
  anchored : Bool
  segs : List Seg
deriving DecidableEq

/-- Fuelled worker for `globMatch`: every recursive call strictly
decreases `ps.length + cs.length`, so fuel `ps.length + cs.length + 1`
never runs out.  Structural recursion on the fuel keeps the function
kernel-reducible. -/
def globMatchF : Nat → List GTok → List Char → Bool
  | _ + 1, [], [] => true
  | _ + 1, [], _ :: _ => false
  | f + 1, GTok.star :: ps, [] => globMatchF f ps []
  | f + 1, GTok.star :: ps, c :: cs =>
      globMatchF f ps (c :: cs) || globMatchF f (GTok.star :: ps) cs
  | _ + 1, GTok.qmark :: _, [] => false
  | f + 1, GTok.qmark :: ps, _ :: cs => globMatchF f ps cs
  | _ + 1, GTok.lit _ :: _, [] => false
  | f + 1, GTok.lit a :: ps, c :: cs => (a == c) && globMatchF f ps cs
  | 0, _, _ => false

/-- Match a single-segment glob against one path segment.  A glob star
matches any (possibly empty) run of characters of the segment; it never
crosses a segment boundary because matching is per segment. -/
def globMatch (ps : List GTok) (cs : List Char) : Bool :=
  globMatchF (ps.length + cs.length + 1) ps cs

/-- Fuelled worker for `segsMatch`; every recursive call strictly
decreases `ps.length + rest.length`, so the fuel used by `segsMatch`
never runs out. -/
def segsMatchF (dOnly : Bool) : Nat → List Seg → List String → Bool
  | _ + 1, [], rest => if dOnly then !rest.isEmpty else true
  | _ + 1, Seg.glob _ :: _, [] => false
  | f + 1, Seg.glob g :: ps, s :: rest =>
      globMatch g s.data && segsMatchF dOnly f ps rest
  | f + 1, Seg.dstar :: ps, [] => segsMatchF dOnly f ps []
  | f + 1, Seg.dstar :: ps, s :: rest =>
      segsMatchF dOnly f ps (s :: rest) || segsMatchF dOnly f (Seg.dstar :: ps) rest
  | 0, _, _ => false

/-- Match a sequence of pattern segments against the path segments,
starting at the root.  Once every pattern segment is consumed the
remaining path segments are unconstrained (a match on a directory also
matches everything below it); a directory-only pattern additionally
requires the match to end strictly above the last path segment. -/
def segsMatch (dOnly : Bool) (ps : List Seg) (rest : List String) : Bool :=
  segsMatchF dOnly (ps.length + rest.length + 1) ps rest

/-- Parse the glob for one pattern segment. -/
def parseGlob : List Char → List GTok
  | [] => []
  | c :: cs =>
    (if c = '*' then GTok.star else if c = '?' then GTok.qmark else GTok.lit c)
      :: parseGlob cs

/-- Parse one pattern segment, recognising the double-star segment. -/
def parseSeg (cs : List Char) : Seg :=
  if cs = ['*', '*'] then Seg.dstar else Seg.glob (parseGlob cs)

/-- Compile one line of gitignore syntax (pathspec
`GitWildMatchPattern.pattern_to_regex`): the line is stripped of
whitespace; blank lines and comment lines compile to no rule; a leading
negation marker sets `negated`; a trailing separator sets `dirOnly`; a
separator at the beginning or middle of the remaining pattern anchors it
to the root. -/
def compileLine (raw : String) : Option GitPattern :=
  let t0 := trimChars raw.data
  if t0.isEmpty then none
  else if t0.headD ' ' = '#' then none
  else
    let neg := t0.headD ' ' = '!'
    let t1 := if neg then t0.tail else t0
    let dOnly := t1.getLast? = some '/'
    let t2 := if dOnly then t1.dropLast else t1
    let anch0 := t2.headD ' ' = '/'
    let t3 := if anch0 then t2.tail else t2
    if t3.isEmpty then none
    else
      let segStrs := splitSlash t3
      some ⟨neg, dOnly, anch0 || segStrs.length > 1, segStrs.map parseSeg⟩

/-- Evaluate one compiled rule against a root-relative path.  A pattern
without a separator (a single glob segment) may match any one segment of
the path — any path at or below a matching file or directory matches; a
directory-only such pattern requires the matching segment to lie strictly
above the end of the path.  Anchored patterns match from the root. -/
def patMatch (pat : GitPattern) (rel : List String) : Bool :=
  if pat.anchored then segsMatch pat.dirOnly pat.segs rel
  else
    match pat.segs with
    | [Seg.glob g] =>
      if pat.dirOnly then rel.dropLast.any (fun s => globMatch g s.data)
      else rel.any (fun s => globMatch g s.data)
    | sgs => segsMatch pat.dirOnly sgs rel

/-! ## The program's ignore configuration (src/app.py, LanguageConfig) -/

/-- `LanguageConfig.IGNORE_PATTERNS`, in source order.  The Python value
is a set whose iteration order is arbitrary; every entry compiles to a
non-negated rule, so the verdict of the compiled rule set does not depend
on the order chosen here. -/
def IGNORE_PATTERNS : List String :=
  [".git", ".svn", ".hg",
   "node_modules", "venv", ".venv", "env", "dist", "build", "target",
   "__pycache__", ".pytest_cache", ".mypy_cache", "vendor",
   "*.png", "*.jpg", "*.jpeg", "*.gif", "*.ico", "*.svg", "*.pdf",
   "*.zip", "*.tar", "*.gz", "*.7z", "*.rar",
   "*.exe", "*.dll", "*.so", "*.dylib", "*.class", "*.jar",
   "*.db", "*.sqlite", "*.sqlite3", "*.pyc",
   "package-lock.json", "yarn.lock", "pnpm-lock.yaml", "Gemfile.lock"]

/-- `ProjectScanner._load_gitignore`: the built-in patterns followed by
the lines of the project's gitignore file (empty when the file is absent
or unreadable), compiled into one ordered rule set. -/
def compileAll (gitignoreLines : List String) : List GitPattern :=
  (IGNORE_PATTERNS ++ gitignoreLines).filterMap compileLine

/-- `PathSpec.match_file`: evaluate all rules in declaration order; the
most recently matching rule decides, a negated rule deciding "not
matched"; when no rule matches the path is not matched. -/
def matchFile (rules : List GitPattern) (rel : List String) : Bool :=
  match rules.foldl (fun acc r => if patMatch r rel then some r.negated else acc) none with
  | some neg => !neg
  | none => false

/-- `ProjectScanner.should_ignore`: compute the root-relative path (when
the path does not lie under the root this raises, and the handler answers
`true`); then the fast exact-name check of the base name against
`IGNORE_PATTERNS`; then the full compiled rule set. -/
def should_ignore (root gitignoreLines p : List String) : Bool :=
  if root.isPrefixOf p then
    if IGNORE_PATTERNS.contains ((p.getLast?).getD "") then true
    else matchFile (compileAll gitignoreLines) (p.drop root.length)
  else true

/-- A pattern string is self-matching when it compiles to a non-negated,
unanchored, non-directory-only single glob that matches the pattern
string itself (taken literally as a file name). -/
def selfMatching (s : String) : Bool :=
  match compileLine s with
  | some pat =>
    !pat.anchored && !pat.dirOnly && !pat.negated &&
      (match pat.segs with
       | [Seg.glob g] => globMatch g s.data
       | _ => false)
  | none => false

/-! ## Language configuration (src/app.py, LanguageConfig.EXTENSION_MAP) -/

/-- `LanguageConfig.EXTENSION_MAP`, in source order. -/
def EXTENSION_MAP : List (String × String) :=
  [(".py", "python"), (".pyi", "python"), (".pyx", "python"), (".ipynb", "json"),
   (".js", "javascript"), (".jsx", "javascript"), (".ts", "typescript"), (".tsx", "typescript"),
   (".html", "html"), (".css", "css"), (".scss", "scss"), (".vue", "vue"), (".svelte", "svelte"),
   (".java", "java"), (".kt", "kotlin"), (".scala", "scala"), (".gradle", "groovy"),
   (".c", "c"), (".h", "c"), (".cpp", "cpp"), (".hpp", "cpp"), (".rs", "rust"), (".go", "go"),
   (".sh", "bash"), (".bash", "bash"), (".zsh", "zsh"), (".lua", "lua"), (".rb", "ruby"), (".php", "php"),
   (".json", "json"), (".yaml", "yaml"), (".yml", "yaml"), (".toml", "toml"), (".xml", "xml"),
   (".sql", "sql"), (".md", "markdown"), (".txt", "text"), ("Dockerfile", "dockerfile"),
   (".tf", "hcl")]

/-- Python `str.lower()` (character-wise). -/
def toLowerStr (s : String) : String := String.mk (s.data.map Char.toLower)

/-- Index of the last dot character in a name, when any. -/
def lastDotIdx (cs : List Char) : Option Nat :=
  (List.range cs.length).foldl
    (fun acc i => if cs.getD i ' ' = '.' then some i else acc) none

/-- `pathlib.PurePath.suffix` of a base name: the text from the last dot
on, provided that dot is neither the first nor the last character;
otherwise the empty string. -/
def suffixOf (name : String) : String :=
  match lastDotIdx name.data with
  | none => ""
  | some i =>
    if 0 < i && i + 1 < name.data.length then String.mk (name.data.drop i) else ""

/-! ## Data structures (src/app.py, FileArtifact / ProjectSummary) -/

/-- `MAX_FILE_SIZE_BYTES` (1 MB limit per file). -/
def MAX_FILE_SIZE_BYTES : Nat := 1000000

/-- `CHARS_PER_TOKEN` (4 characters per estimated token). -/
def CHARS_PER_TOKEN : Nat := 4

/-- `FileArtifact`: the processed representation of one file. -/
structure FileArtifact where
  path : List String
  relative_path : String
  extension : String
  language : String
  size : Nat
  lines : Nat
  content : String
  token_estimate : Nat
  is_truncated : Bool
deriving DecidableEq

/-- `ProjectSummary`: the aggregate handed to the report generator. -/
structure ProjectSummary where
  total_files : Nat
  total_lines : Nat
  total_tokens : Nat
  file_tree : String
  artifacts : List FileArtifact
deriving DecidableEq

/-! ## File processing (src/app.py, FileProcessor.process) -/

/-- The filesystem's answers for one path, as `FileProcessor.process`
observes them: the byte size reported by `stat` (`none` when `stat`
raises), the file's text when opened with strict UTF-8 decoding (`none`
when opening raises or the bytes do not decode, i.e. a binary file), and
its text when opened with replacement decoding (`none` when opening
raises on that code path). -/
structure FsFile where
  stat : Option Nat
  readStrict : Option (List Char)
  readReplace : Option (List Char)
deriving DecidableEq

/-- The warning comment `FileProcessor.process` prepends to an oversized
file's tail. -/
def warnStr (size : Nat) : String :=
  "<!-- WARNING: File too large (" ++ Nat.repr size ++
    " bytes). Truncated to last 1000 lines for context. -->\n\n"

/-- `FileProcessor.process`: skip empty files; compute the root-relative
path (a failure is caught by the surrounding handler and yields nothing);
detect the language from the lowercased extension with base-name
overrides; read the content, truncating oversized files to the warning
comment plus their last 1000 lines; count lines and estimate tokens on
the content that was kept.  Any failure yields nothing. -/
def process (p root : List String) (f : FsFile) : Option FileArtifact :=
  match f.stat with
  | none => none
  | some size =>
    if size = 0 then none
    else if root.isPrefixOf p then
      let rel_path := relString root p
      let name0 := (p.getLast?).getD ""
      let ext := toLowerStr (suffixOf name0)
      let name := toLowerStr name0
      let lang0 := ((EXTENSION_MAP.lookup ext).getD "text")
      let lang1 := if name = "dockerfile" then "dockerfile" else lang0
      let lang := if name = "makefile" then "makefile" else lang1
      if size > MAX_FILE_SIZE_BYTES then
        match f.readReplace with
        | none => none
        | some text =>
          let content := warnStr size ++ String.mk (joinChunks (lastN 1000 (readlines text)))
          some ⟨p, rel_path, ext, lang, size, countNl content + 1, content,
                content.length / CHARS_PER_TOKEN, true⟩
      else
        match f.readStrict with
        | none => none
        | some text =>
          let content := String.mk text
          some ⟨p, rel_path, ext, lang, size, countNl content + 1, content,
                content.length / CHARS_PER_TOKEN, false⟩
    else none

/-! ## Directory traversal (src/app.py, ProjectScanner.scan)

A directory's contents as `os.walk` enumerates them: the subdirectory
listing and the file listing, each in the (arbitrary) order the
filesystem reports.  `os.walk` is top-down: the current directory's
surviving files are yielded before descending, and a subdirectory removed
from the listing (pruned) is never descended into. -/

/-- A directory tree with explicit enumeration order. -/
inductive FsTree where
  | node : List (String × FsTree) → List String → FsTree

/-- Directory listing of a tree node. -/
def FsTree.dirs : FsTree → List (String × FsTree)
  | .node ds _ => ds

/-- File listing of a tree node. -/
def FsTree.files : FsTree → List String
  | .node _ fs => fs

mutual

/-- `ProjectScanner.scan` below one directory whose absolute path is
`pre`: yield the directory's files that are not ignored, then walk the
subdirectories in listing order, skipping (pruning) any subdirectory that
is ignored. -/
def scanAux (root gitignoreLines pre : List String) : FsTree → List (List String)
  | .node ds fs =>
    (fs.filter (fun f => !(should_ignore root gitignoreLines (pre ++ [f])))).map
        (fun f => pre ++ [f])
      ++ scanDirs root gitignoreLines pre ds

/-- Walk a subdirectory listing in order, pruning ignored directories. -/
def scanDirs (root gitignoreLines pre : List String) : List (String × FsTree) → List (List String)
  | [] => []
  | (d, sub) :: rest =>
    (if should_ignore root gitignoreLines (pre ++ [d]) then []
     else scanAux root gitignoreLines (pre ++ [d]) sub)
      ++ scanDirs root gitignoreLines pre rest

end

/-- `list(scanner.scan())`: the included file paths of the whole tree, in
traversal order. -/
def scanList (root gitignoreLines : List String) (t : FsTree) : List (List String) :=
  scanAux root gitignoreLines root t

/-- Lexicographic comparison of character lists by code point: the
comparison Python applies to strings when sorting. -/
def charsLeB : List Char → List Char → Bool
  | [], _ => true
  | _ :: _, [] => false
  | a :: as, b :: bs => if a = b then charsLeB as bs else decide (a < b)

/-- Comparison of strings by code point (Python string comparison). -/
def strLeB (a b : String) : Bool := charsLeB a.data b.data

/-- Comparison of paths by their rendered string form (the sort key
`str(p)` used by `generate_tree`). -/
def pathLe (p q : List String) : Prop := strLeB (pathStr p) (pathStr q) = true

instance : DecidableRel pathLe := fun p q =>
  inferInstanceAs (Decidable (strLeB (pathStr p) (pathStr q) = true))

/-- The sorted path list built at the start of
`ProjectScanner.generate_tree`
(`sorted(list(self.scan()), key=lambda p: str(p))`). -/
def treePaths (root gitignoreLines : List String) (t : FsTree) : List (List String) :=
  List.insertionSort pathLe (scanList root gitignoreLines t)

/-! ## Coordination (src/app.py, main) -/

/-- The file list handed to the worker pool: the scan output with any
path equal to the resolved output destination filtered out. -/
def filesToProcess (root gitignoreLines out : List String) (t : FsTree) : List (List String) :=
  (scanList root gitignoreLines t).filter (fun p => p ≠ out)

/-- The artifacts collected from the worker pool when results come back
in submission order (a worker pool of one); other completion orders
permute this list.  A nothing-result is dropped. -/
def collectArtifacts (fs : List String → FsFile) (root : List String)
    (files : List (List String)) : List FileArtifact :=
  files.filterMap (fun p => process p root (fs p))

/-- The aggregation step of `main`: the `ProjectSummary` literally stores
the collected artifact list, together with its length and the sums of the
per-artifact line counts and token estimates. -/
def buildSummary (tree : String) (arts : List FileArtifact) : ProjectSummary :=
  ⟨arts.length, (arts.map (fun a => a.lines)).sum,
   (arts.map (fun a => a.token_estimate)).sum, tree, arts⟩

/-- Comparison of artifacts by relative path (the sort key used by
`ReportGenerator.generate`). -/
def artLe (a b : FileArtifact) : Prop := strLeB a.relative_path b.relative_path = true

instance : DecidableRel artLe := fun a b =>
  inferInstanceAs (Decidable (strLeB a.relative_path b.relative_path = true))

/-- The artifact sequence `ReportGenerator.generate` renders:
`sorted(summary.artifacts, key=lambda x: x.relative_path)`. -/
def reportArtifacts (s : ProjectSummary) : List FileArtifact :=
  List.insertionSort artLe s.artifacts

/-- The observable outcome of `main` with respect to its two
preconditions: when the root path does not exist, `main` exits with
status 1 before doing anything; otherwise the run proceeds, and a failure
to write the output is caught, logged, and followed by a normal return —
the pair records the exit status and whether the report was written. -/
def mainResult (rootExists writeOk : Bool) : Nat × Bool :=
  if rootExists then (0, writeOk) else (1, false)

/-! ## Supporting lemmas -/

theorem charsLeB_refl : ∀ a, charsLeB a a = true
  | [] => rfl
  | _ :: as => by simp [charsLeB, charsLeB_refl as]

theorem charsLeB_total : ∀ a b, charsLeB a b = true ∨ charsLeB b a = true := by
  intro a
  induction a with
  | nil => intro b; left; rfl
  | cons x xs ih =>
    intro b
    cases b with
    | nil => right; rfl
    | cons y ys =>
      by_cases h : x = y
      · subst h
        simpa [charsLeB] using ih ys
      · rcases lt_trichotomy x y with hlt | heq | hgt
        · left; simp [charsLeB, h, hlt]
        · exact absurd heq h
        · right; simp [charsLeB, Ne.symm h, hgt]

theorem charsLeB_trans :
    ∀ a b c, charsLeB a b = true → charsLeB b c = true → charsLeB a c = true := by
  intro a
  induction a with
  | nil => intros; rfl
  | cons x xs ih =>
    intro b c hab hbc
    cases b with
    | nil => simp [charsLeB] at hab
    | cons y ys =>
      cases c with
      | nil => simp [charsLeB] at hbc
      | cons z zs =>
        by_cases hxy : x = y
        · subst hxy
          by_cases hyz : x = z
          · subst hyz
            simp only [charsLeB, if_pos rfl] at hab hbc ⊢
            exact ih ys zs hab hbc
          · simpa [charsLeB, hyz] using (by simpa [charsLeB, hyz] using hbc : x < z)
        · have hlt : x < y := by simpa [charsLeB, hxy] using hab
          by_cases hyz : y = z
          · subst hyz
            simp [charsLeB, hxy, hlt]
          · have hlt2 : y < z := by simpa [charsLeB, hyz] using hbc
            have hxz : x < z := lt_trans hlt hlt2
            simp [charsLeB, ne_of_lt hxz, hxz]

theorem charsLeB_antisymm :
    ∀ a b, charsLeB a b = true → charsLeB b a = true → a = b := by
  intro a
  induction a with
  | nil =>
    intro b _ hba
    cases b with
    | nil => rfl
    | cons y ys => simp [charsLeB] at hba
  | cons x xs ih =>
    intro b hab hba
    cases b with
    | nil => simp [charsLeB] at hab
    | cons y ys =>
      by_cases h : x = y
      · subst h
        have hba' : charsLeB ys xs = true := by simpa [charsLeB] using hba
        have hab' : charsLeB xs ys = true := by simpa [charsLeB] using hab
        rw [ih ys hab' hba']
      · have h1 : x < y := by simpa [charsLeB, h] using hab
        have h2 : y < x := by simpa [charsLeB, Ne.symm h] using hba
        exact absurd h1 (lt_asymm h2)

/-- `process` returns nothing for a file whose reported size is zero. -/
theorem process_stat_zero (p root : List String) (f : FsFile) (h : f.stat = some 0) :
    process p root f = none := by
  unfold process
  rw [h]
  rfl

/-! ## Claims -/

/-- C10: for every path for which a path relative to the scan root cannot
be computed (the path does not lie under the root), `should_ignore`
returns `true`: such a path is excluded as a safe default rather than
raising an error. -/
theorem c10_outside_root_ignored (root gitignoreLines p : List String)
    (h : ¬ root <+: p) : should_ignore root gitignoreLines p = true := by
  unfold should_ignore
  rw [if_neg]
  simpa [ List.isPrefixOf_iff_prefix] using h

theorem c10_outside_root_ignored_witness :
    should_ignore ["r"] [] ["x", "a.txt"] = true :=
  c10_outside_root_ignored ["r"] [] ["x", "a.txt"] (by decide)

/-- C9: for every file with zero underlying bytes the ingestor produces
nothing: no artifact is created for it, it is absent from the collected
artifact list, and — since the total file count is the length of that
list — it does not contribute to the total file count. -/
theorem c9_empty_file_skipped :
    (∀ (p root : List String) (rs rr : Option (List Char)),
        process p root ⟨some 0, rs, rr⟩ = none)
    ∧ (∀ (fs : List String → FsFile) (root : List String) (files : List (List String)),
        collectArtifacts fs root files =
          collectArtifacts fs root (files.filter (fun p => !((fs p).stat == some 0))))
    ∧ (∀ (fs : List String → FsFile) (root : List String) (files : List (List String))
        (tree : String),
        (buildSummary tree (collectArtifacts fs root files)).total_files =
          (collectArtifacts fs root
            (files.filter (fun p => !((fs p).stat == some 0)))).length) := by
  have key : ∀ (fs : List String → FsFile) (root : List String) (files : List (List String)),
      collectArtifacts fs root files =
        collectArtifacts fs root (files.filter (fun p => !((fs p).stat == some 0))) := by
    intro fs root files
    induction files with
    | nil => rfl
    | cons p ps ih =>
      by_cases h : (fs p).stat = some 0
      · have hnone := process_stat_zero p root (fs p) h
        simp only [collectArtifacts, List.filterMap_cons, List.filter_cons, h] at ih ⊢
        simpa [hnone] using ih
      · have hb : ((fs p).stat == some 0) = false := by simpa using h
        simp only [collectArtifacts, List.filterMap_cons, List.filter_cons, hb] at ih ⊢
        simp only [Bool.not_false, if_pos trivial, List.filterMap_cons]
        cases process p root (fs p) <;> simp [ih]
  refine ⟨fun p root rs rr => process_stat_zero p root _ rfl, key, ?_⟩
  intro fs root files tree
  rw [← key]
  rfl

/-- C7: for every non-empty, non-binary file of at most 1,000,000 bytes
that the ingestor turns into an artifact, the artifact's line count
equals 1 + the number of newline characters in the original content, and
its token estimate equals the length of the content divided by 4,
truncated toward zero. -/
theorem c7_roundtrip_counts (p root : List String) (f : FsFile) (size : Nat)
    (text : List Char) (hpre : root.isPrefixOf p = true) (hstat : f.stat = some size)
    (h0 : size ≠ 0) (hle : size ≤ MAX_FILE_SIZE_BYTES) (hread : f.readStrict = some text) :
    ∃ a, process p root f = some a ∧ a.content = String.mk text ∧
      a.lines = countNl (String.mk text) + 1 ∧
      a.token_estimate = (String.mk text).length / 4 := by
  have hgt : ¬ size > MAX_FILE_SIZE_BYTES := by omega
  unfold process
  rw [hstat]
  simp only [h0, if_false, hpre, if_true, hgt, hread]
  exact ⟨_, rfl, rfl, rfl, rfl⟩

theorem c7_roundtrip_counts_witness :
    ∃ a, process ["r", "a.txt"] ["r"] ⟨some 5, some "ab\nc".data, none⟩ = some a ∧
      a.content = String.mk "ab\nc".data ∧
      a.lines = countNl (String.mk "ab\nc".data) + 1 ∧
      a.token_estimate = (String.mk "ab\nc".data).length / 4 :=
  c7_roundtrip_counts ["r", "a.txt"] ["r"] ⟨some 5, some "ab\nc".data, none⟩ 5 "ab\nc".data
    (by decide) rfl (by decide) (by decide) rfl

/-- C6: for every file whose byte size exceeds 1,000,000 bytes that reads
successfully, the ingestor produces an artifact with the truncation flag
set, whose content is exactly the generated warning comment stating the
original size and that truncation occurred, followed by the file's last
1,000 lines, and whose line count and token estimate are computed on that
truncated content. -/
theorem c6_truncation (p root : List String) (f : FsFile) (size : Nat)
    (text : List Char) (hpre : root.isPrefixOf p = true) (hstat : f.stat = some size)
    (hgt : size > MAX_FILE_SIZE_BYTES) (hread : f.readReplace = some text) :
    ∃ a, process p root f = some a ∧ a.is_truncated = true ∧
      a.content = warnStr size ++ String.mk (joinChunks (lastN 1000 (readlines text))) ∧
      a.lines = countNl a.content + 1 ∧
      a.token_estimate = a.content.length / 4 := by
  have h0 : ¬ size = 0 := by
    intro h
    rw [h] at hgt
    exact absurd hgt (by decide)
  unfold process
  rw [hstat]
  simp only [h0, if_false, hpre, if_true, hgt, hread]
  exact ⟨_, rfl, rfl, rfl, rfl, rfl⟩

theorem c6_truncation_witness :
    ∃ a, process ["r", "big.log"] ["r"] ⟨some 1000001, none, some "x\ny\nz".data⟩ = some a ∧
      a.is_truncated = true ∧
      a.content =
        warnStr 1000001 ++ String.mk (joinChunks (lastN 1000 (readlines "x\ny\nz".data))) ∧
      a.lines = countNl a.content + 1 ∧
      a.token_estimate = a.content.length / 4 :=
  c6_truncation ["r", "big.log"] ["r"] ⟨some 1000001, none, some "x\ny\nz".data⟩ 1000001
    "x\ny\nz".data (by decide) rfl (by decide) rfl

/-- C5 counterexample: in a run whose root path exists but whose output
destination is not writable, `main` catches the write failure, logs it,
and returns normally — the process terminates with exit status 0 and no
report written, contradicting the claim that such a run terminates with a
non-zero status. -/
theorem c5_counterexample : mainResult true false = (0, false) := rfl

/-- C5 (amended): the run terminates with a non-zero status exactly when
the root path does not exist; a non-writable output destination is
reported as an error but the process still terminates with status 0 (and
no report written); per-file and per-subtree failures are absorbed
locally. -/
theorem c5_exit_status (rootExists writeOk : Bool) :
    (mainResult rootExists writeOk).1 ≠ 0 ↔ rootExists = false := by
  cases rootExists <;> cases writeOk <;> decide

/-- Two sorted artifact lists that are permutations of each other and
whose relative paths are pairwise distinct are equal. -/
theorem sorted_perm_unique_relpaths :
    ∀ (l₁ l₂ : List FileArtifact), List.Perm l₁ l₂ →
      (l₁.map (fun a => a.relative_path)).Nodup →
      l₁.Sorted artLe → l₂.Sorted artLe → l₁ = l₂ := by
  intro l₁
  induction l₁ with
  | nil =>
    intro l₂ hp _ _ _
    exact (hp.symm.eq_nil).symm
  | cons a t ih =>
    intro l₂ hp hnd hs₁ hs₂
    cases l₂ with
    | nil => exact absurd hp.eq_nil (by simp)
    | cons b u =>
      have hbmem : b ∈ a :: t := hp.mem_iff.mpr (List.mem_cons_self b u)
      have hamem : a ∈ b :: u := hp.mem_iff.mp (List.mem_cons_self a t)
      have hab : artLe a b := by
        rcases List.mem_cons.mp hbmem with h | h
        · rw [h]; exact charsLeB_refl _
        · exact List.rel_of_sorted_cons hs₁ b h
      have hba : artLe b a := by
        rcases List.mem_cons.mp hamem with h | h
        · rw [h]; exact charsLeB_refl _
        · exact List.rel_of_sorted_cons hs₂ a h
      have hkey : a.relative_path = b.relative_path :=
        String.ext (charsLeB_antisymm _ _ hab hba)
      have hnd₂ : ((b :: u).map (fun a => a.relative_path)).Nodup :=
        ((hp.map (fun a => a.relative_path)).nodup_iff).mp hnd
      have hae : a = b := by
        rcases List.mem_cons.mp hamem with h | h
        · exact h
        · exfalso
          have hmem : a.relative_path ∈ u.map (fun a => a.relative_path) :=
            List.mem_map_of_mem (fun a => a.relative_path) h
          rw [hkey] at hmem
          exact (List.nodup_cons.mp (by simpa using hnd₂)).1 hmem
      subst hae
      have ht : List.Perm t u := hp.cons_inv
      have hndt : (t.map (fun a => a.relative_path)).Nodup :=
        (List.nodup_cons.mp (by simpa using hnd)).2
      rw [ih u ht hndt hs₁.of_cons hs₂.of_cons]

/-- C1 counterexample: a run over a root whose directory listing yields
`b.txt` before `a.txt`, with results collected in submission order (a
worker pool of one): the artifact collection stored in the returned
`ProjectSummary` is `[b.txt, a.txt]`, which is not sorted by relative
path — the aggregation step stores the artifacts in completion order. -/
theorem c1_counterexample :
    ¬ List.Sorted artLe
      (buildSummary "tree"
        (collectArtifacts (fun _ => ⟨some 1, some "x".data, none⟩) ["r"]
          (filesToProcess ["r"] [] ["r", "out.md"]
            (.node [] ["b.txt", "a.txt"])))).artifacts := by
  decide

/-- C1 (amended): the `ProjectSummary` stores the artifacts in worker
completion order; the sort by relative path happens in
`ReportGenerator.generate`, so the rendered artifact sequence is sorted
by relative path and is identical in content and ordering for any two
completion orders of the same artifact multiset (in particular for worker
pools of 4 and of 1), the artifacts' relative paths being pairwise
distinct. -/
theorem c1_report_deterministic (tree : String) (l₁ l₂ : List FileArtifact)
    (hp : List.Perm l₁ l₂) (hnd : (l₁.map (fun a => a.relative_path)).Nodup) :
    reportArtifacts (buildSummary tree l₁) = reportArtifacts (buildSummary tree l₂) ∧
      List.Sorted artLe (reportArtifacts (buildSummary tree l₁)) := by
  haveI : IsTotal FileArtifact artLe := ⟨fun a b => charsLeB_total _ _⟩
  haveI : IsTrans FileArtifact artLe := ⟨fun _ _ _ h h' => charsLeB_trans _ _ _ h h'⟩
  have hs₁ := List.sorted_insertionSort artLe l₁
  have hs₂ := List.sorted_insertionSort artLe l₂
  have hperm : List.Perm (List.insertionSort artLe l₁) (List.insertionSort artLe l₂) :=
    (List.perm_insertionSort artLe l₁).trans (hp.trans (List.perm_insertionSort artLe l₂).symm)
  have hnd' : ((List.insertionSort artLe l₁).map (fun a => a.relative_path)).Nodup :=
    (((List.perm_insertionSort artLe l₁).map (fun a => a.relative_path)).nodup_iff).mpr hnd
  exact ⟨sorted_perm_unique_relpaths _ _ hperm hnd' hs₁ hs₂, hs₁⟩

theorem c1_report_deterministic_witness :
    reportArtifacts (buildSummary "t"
        [⟨["r", "a"], "a", "", "text", 1, 1, "x", 0, false⟩,
         ⟨["r", "b"], "b", "", "text", 1, 1, "y", 0, false⟩]) =
      reportArtifacts (buildSummary "t"
        [⟨["r", "b"], "b", "", "text", 1, 1, "y", 0, false⟩,
         ⟨["r", "a"], "a", "", "text", 1, 1, "x", 0, false⟩]) ∧
      List.Sorted artLe (reportArtifacts (buildSummary "t"
        [⟨["r", "a"], "a", "", "text", 1, 1, "x", 0, false⟩,
         ⟨["r", "b"], "b", "", "text", 1, 1, "y", 0, false⟩])) :=
  c1_report_deterministic "t"
    [⟨["r", "a"], "a", "", "text", 1, 1, "x", 0, false⟩,
     ⟨["r", "b"], "b", "", "text", 1, 1, "y", 0, false⟩]
    [⟨["r", "b"], "b", "", "text", 1, 1, "y", 0, false⟩,
     ⟨["r", "a"], "a", "", "text", 1, 1, "x", 0, false⟩]
    (by decide) (by decide)

/-- C3 counterexample: a root whose directory listing yields `b.txt`
before `a.txt`: `main` hands `list(scanner.scan())` to the worker pool
without sorting, so the list handed to the ingestion stage is in
filesystem enumeration order and not sorted lexicographically by its
string form. -/
theorem c3_counterexample :
    ¬ List.Sorted pathLe
      (filesToProcess ["r"] [] ["r", "out.md"] (.node [] ["b.txt", "a.txt"])) := by
  decide

/-- C3 (amended): the included-file path list is sorted lexicographically
by its string form before tree rendering (`generate_tree` sorts its own
copy of the scan, for every root, ignore configuration and filesystem
enumeration order, keeping exactly the scanned paths); the list handed to
the ingestion stage is in traversal order and is not re-sorted there. -/
theorem c3_tree_paths_sorted (root gitignoreLines : List String) (t : FsTree) :
    List.Sorted pathLe (treePaths root gitignoreLines t) ∧
      List.Perm (treePaths root gitignoreLines t) (scanList root gitignoreLines t) := by
  haveI : IsTotal (List String) pathLe := ⟨fun p q => charsLeB_total _ _⟩
  haveI : IsTrans (List String) pathLe := ⟨fun _ _ _ h h' => charsLeB_trans _ _ _ h h'⟩
  exact ⟨List.sorted_insertionSort pathLe _, List.perm_insertionSort pathLe _⟩

/-- The fold performed by `matchFile` keeps the decision of the most
recently matching rule (the first match in the reversed rule list),
falling back to the accumulator when no rule matches. -/
theorem foldl_match_eq_reverse_find (rel : List String) :
    ∀ (rules : List GitPattern) (acc : Option Bool),
      rules.foldl (fun a r => if patMatch r rel then some r.negated else a) acc
      = match rules.reverse.find? (fun r => patMatch r rel) with
        | some r => some r.negated
        | none => acc := by
  intro rules
  induction rules with
  | nil => intro acc; rfl
  | cons r rs ih =>
    intro acc
    simp only [List.foldl_cons, List.reverse_cons, List.find?_append]
    rw [ih]
    cases hfind : rs.reverse.find? (fun r => patMatch r rel) with
    | some r' => simp [Option.or]
    | none =>
      by_cases hp : patMatch r rel
      · simp [hp, Option.or]
      · simp [hp, Option.or]

/-- When every rule of the set is non-negated, the last-match verdict
degenerates to "some rule matches". -/
theorem matchFile_all_pos (rules : List GitPattern) (rel : List String)
    (hpos : ∀ r ∈ rules, r.negated = false) :
    matchFile rules rel = rules.any (fun r => patMatch r rel) := by
  unfold matchFile
  rw [foldl_match_eq_reverse_find]
  cases hfind : rules.reverse.find? (fun r => patMatch r rel) with
  | none =>
    rw [List.find?_eq_none] at hfind
    have hany : rules.any (fun r => patMatch r rel) = false := by
      simp only [List.any_eq_false]
      intro r hr
      simpa using hfind r (List.mem_reverse.mpr hr)
    rw [hany]
  | some r =>
    have hrmem : r ∈ rules := List.mem_reverse.mp (List.mem_of_find?_eq_some hfind)
    have hpm : patMatch r rel = true := by simpa using List.find?_some hfind
    have hany : rules.any (fun r => patMatch r rel) = true := by
      simp only [List.any_eq_true]
      exact ⟨r, hrmem, hpm⟩
    rw [hany]
    show (!r.negated) = true
    rw [hpos r hrmem]
    rfl

/-- An unanchored, non-directory-only, single-glob rule matches a path
one of whose segments matches the glob. -/
theorem patMatch_of_segment (pat : GitPattern) (g : List GTok) (rel : List String)
    (s : String) (hanch : pat.anchored = false) (hdir : pat.dirOnly = false)
    (hsegs : pat.segs = [Seg.glob g]) (hmem : s ∈ rel)
    (hg : globMatch g s.data = true) : patMatch pat rel = true := by
  unfold patMatch
  rw [hanch, hsegs, hdir]
  simp only [Bool.false_eq_true, if_false, List.any_eq_true]
  exact ⟨s, hmem, hg⟩

/-- Every built-in ignore pattern is self-matching: a path whose base
name equals the pattern string, taken literally, is matched by the
pattern's own compiled rule. -/
theorem ignore_list_self_matching : IGNORE_PATTERNS.all selfMatching = true := by decide

/-- C4: pattern matching evaluates all compiled rules in declaration
order; the final verdict is that of the most recently matching rule, a
negated rule flipping the verdict back to included, and the default
verdict is included when no rule matches.  In particular, with an ignore
file containing the log glob then its negation for `keep.log`, the file
`a.log` is excluded and `keep.log` is included. -/
theorem c4_last_match_wins :
    (∀ (rules : List GitPattern) (rel : List String),
        matchFile rules rel =
          match rules.reverse.find? (fun r => patMatch r rel) with
          | none => false
          | some r => !r.negated)
    ∧ should_ignore ["r"] ["*.log", "!keep.log"] ["r", "a.log"] = true
    ∧ should_ignore ["r"] ["*.log", "!keep.log"] ["r", "keep.log"] = false := by
  refine ⟨?_, by decide, by decide⟩
  intro rules rel
  unfold matchFile
  rw [foldl_match_eq_reverse_find]
  cases rules.reverse.find? (fun r => patMatch r rel) <;> rfl

/-- C2 counterexample: for a project ignore file containing only the
negation of the built-in directory name `node_modules`, and a path whose
base name is `node_modules`, the fast-path exact-name check answers
"ignored" without consulting the rules, while the full compiled rule set
alone answers "included" (its most recent match is the negated project
rule).  The fast path changes the final verdict. -/
theorem c2_counterexample :
    should_ignore ["r"] ["!node_modules"] ["r", "node_modules"] = true ∧
      matchFile (compileAll ["!node_modules"]) ["node_modules"] = false := by
  constructor
  · decide
  · decide

/-- Unpacking of a successful `selfMatching` test. -/
theorem selfMatching_spec (s : String) (h : selfMatching s = true) :
    ∃ pat g, compileLine s = some pat ∧ pat.negated = false ∧ pat.anchored = false ∧
      pat.dirOnly = false ∧ pat.segs = [Seg.glob g] ∧ globMatch g s.data = true := by
  unfold selfMatching at h
  cases hcomp : compileLine s with
  | none => rw [hcomp] at h; simp at h
  | some pat =>
    rw [hcomp] at h
    have h' : (!pat.anchored && !pat.dirOnly && !pat.negated &&
        (match pat.segs with
         | [Seg.glob g] => globMatch g s.data
         | _ => false)) = true := h
    clear h
    refine ⟨pat, ?_⟩
    cases hsegs : pat.segs with
    | nil => rw [hsegs] at h'; simp at h'
    | cons s0 tl =>
      cases s0 with
      | glob g =>
        cases tl with
        | nil =>
          rw [hsegs] at h'
          simp only [Bool.and_eq_true, Bool.not_eq_true'] at h'
          exact ⟨g, rfl, h'.1.2, h'.1.1.1, h'.1.1.2, rfl, h'.2⟩
        | cons _ _ => rw [hsegs] at h'; simp at h'
      | dstar => rw [hsegs] at h'; cases tl <;> simp at h'

/-- C2 (amended): when the project ignore file contains no negated
pattern, the fast-path exact-name check never changes the final verdict —
for every path strictly below the root, `should_ignore` equals the
verdict of evaluating the full compiled rule set alone.  (When a negated
project rule re-includes a built-in name, the fast path can answer
"excluded" where the full rule set answers "included"; see the
counterexample.) -/
theorem c2_fast_path_agrees (root p gitignoreLines : List String)
    (hpre : root.isPrefixOf p = true) (hlen : root.length < p.length)
    (hpos : gitignoreLines.all
        (fun l => match compileLine l with
                  | some pat => !pat.negated
                  | none => true) = true) :
    should_ignore root gitignoreLines p =
      matchFile (compileAll gitignoreLines) (p.drop root.length) := by
  unfold should_ignore
  rw [if_pos hpre]
  by_cases hname : IGNORE_PATTERNS.contains ((p.getLast?).getD "") = true
  · rw [if_pos hname]
    have hnm : ((p.getLast?).getD "") ∈ IGNORE_PATTERNS := by
      simpa using hname
    -- the relative path is non-empty and its last segment is the base name
    have hrelne : p.drop root.length ≠ [] := by
      intro hnil
      have := List.length_drop root.length p
      rw [hnil] at this
      simp at this
      omega
    cases hgl : (p.drop root.length).getLast? with
    | none => exact absurd (List.getLast?_eq_none_iff.mp hgl) hrelne
    | some lastSeg =>
      have hplast : p.getLast? = some lastSeg := by
        conv_lhs => rw [← List.take_append_drop root.length p]
        rw [List.getLast?_append, hgl]
        rfl
      have hnamedef : ((p.getLast?).getD "") = lastSeg := by rw [hplast]; rfl
      rw [hnamedef] at hnm
      have hmem : lastSeg ∈ p.drop root.length :=
        List.mem_of_mem_getLast? (by rw [hgl]; rfl)
      -- every compiled rule of the combined set is non-negated
      have hposall : ∀ r ∈ compileAll gitignoreLines, r.negated = false := by
        intro r hr
        rcases List.mem_filterMap.mp hr with ⟨s, hs, hcs⟩
        rcases List.mem_append.mp hs with hs' | hs'
        · have hsm : selfMatching s = true := by
            simpa using (List.all_eq_true.mp ignore_list_self_matching) s hs'
          rcases selfMatching_spec s hsm with ⟨pat, g, hc, hn, _, _, _, _⟩
          rw [hc] at hcs
          cases hcs
          exact hn
        · have hl := (List.all_eq_true.mp hpos) s hs'
          rw [hcs] at hl
          simpa using hl
      rw [matchFile_all_pos _ _ hposall]
      symm
      simp only [List.any_eq_true]
      have hsm : selfMatching lastSeg = true := by
        simpa using (List.all_eq_true.mp ignore_list_self_matching) lastSeg hnm
      rcases selfMatching_spec lastSeg hsm with ⟨pat, g, hc, _, ha, hd, hsegs, hg⟩
      refine ⟨pat, ?_, ?_⟩
      · exact List.mem_filterMap.mpr ⟨lastSeg, List.mem_append.mpr (Or.inl hnm), hc⟩
      · exact patMatch_of_segment pat g _ lastSeg ha hd hsegs hmem hg
  · rw [if_neg hname]

theorem c2_fast_path_agrees_witness :
    should_ignore ["r"] ["*.log"] ["r", "src", "a.py"] =
      matchFile (compileAll ["*.log"]) (["r", "src", "a.py"].drop ["r"].length) :=
  c2_fast_path_agrees ["r"] ["r", "src", "a.py"] ["*.log"] (by decide) (by decide) (by decide)

/-- `process` only ever returns an artifact whose `relative_path` is the
rendered root-relative form of the processed path. -/
theorem process_some_relpath (p root : List String) (f : FsFile) (a : FileArtifact)
    (h : process p root f = some a) : a.relative_path = relString root p := by
  unfold process at h
  cases hstat : f.stat with
  | none => rw [hstat] at h; cases h
  | some size =>
    rw [hstat] at h
    by_cases h0 : size = 0
    · simp [h0] at h
    · simp only [h0, if_false] at h
      by_cases hpre : root.isPrefixOf p = true
      · simp only [hpre, if_true] at h
        by_cases hsz : size > MAX_FILE_SIZE_BYTES
        · simp only [hsz, if_true] at h
          cases hrr : f.readReplace with
          | none => rw [hrr] at h; cases h
          | some text =>
            rw [hrr] at h
            cases h
            rfl
        · simp only [hsz, if_false] at h
          cases hrs : f.readStrict with
          | none => rw [hrs] at h; cases h
          | some text =>
            rw [hrs] at h
            cases h
            rfl
      · simp [hpre] at h

mutual

/-- Pruning invariant for `scanAux`: every path it yields lies strictly
below the directory being walked, and every strictly intermediate
ancestor directory was tested and found not ignored before descent. -/
theorem scanAux_clean (root gl : List String) (t : FsTree) :
    ∀ (pre p : List String), p ∈ scanAux root gl pre t →
      pre <+: p ∧ pre.length < p.length ∧
        ∀ q, pre <+: q → q <+: p → q ≠ pre → q ≠ p →
          should_ignore root gl q = false := by
  match t with
  | .node ds fs =>
    intro pre p hp
    simp only [scanAux] at hp
    rcases List.mem_append.mp hp with hf | hd
    · rcases List.mem_map.mp hf with ⟨f, hfmem, rfl⟩
      refine ⟨List.prefix_append pre [f], by simp, ?_⟩
      intro q hq1 hq2 hq3 hq4
      exfalso
      have hl1 : pre.length ≤ q.length := hq1.length_le
      have hl2 : q.length ≤ pre.length + 1 := by
        have := hq2.length_le
        simpa using this
      rcases Nat.lt_or_ge pre.length q.length with hlt | hge
      · have hq : q.length = pre.length + 1 := by omega
        exact hq4 (hq2.eq_of_length (by simpa using hq))
      · have hq : q.length = pre.length := by omega
        exact hq3 (hq1.eq_of_length hq.symm).symm
    · exact scanDirs_clean root gl ds pre p hd

/-- Pruning invariant for `scanDirs`. -/
theorem scanDirs_clean (root gl : List String) (l : List (String × FsTree)) :
    ∀ (pre p : List String), p ∈ scanDirs root gl pre l →
      pre <+: p ∧ pre.length < p.length ∧
        ∀ q, pre <+: q → q <+: p → q ≠ pre → q ≠ p →
          should_ignore root gl q = false := by
  match l with
  | [] =>
    intro pre p hp
    simp [scanDirs] at hp
  | (d, sub) :: rest =>
    intro pre p hp
    simp only [scanDirs] at hp
    rcases List.mem_append.mp hp with hin | hrest
    · by_cases hig : should_ignore root gl (pre ++ [d]) = true
      · rw [if_pos hig] at hin
        simp at hin
      · have hig' : should_ignore root gl (pre ++ [d]) = false := by
          cases hv : should_ignore root gl (pre ++ [d])
          · rfl
          · exact absurd hv hig
        rw [if_neg hig] at hin
        obtain ⟨hpre1, hlen1, hanc1⟩ := scanAux_clean root gl sub (pre ++ [d]) p hin
        have hplen : (pre ++ [d]).length = pre.length + 1 := by simp
        refine ⟨(List.prefix_append pre [d]).trans hpre1, by omega, ?_⟩
        intro q hq1 hq2 hq3 hq4
        have hql : pre.length < q.length := by
          have hle : pre.length ≤ q.length := hq1.length_le
          rcases Nat.lt_or_ge pre.length q.length with hlt | hge
          · exact hlt
          · have heq : pre.length = q.length := by omega
            exact absurd (hq1.eq_of_length heq).symm hq3
        by_cases hqd : q.length = pre.length + 1
        · have hqpd : q = pre ++ [d] := by
            rcases List.prefix_or_prefix_of_prefix hq2 hpre1 with h | h
            · exact h.eq_of_length (by omega)
            · exact (h.eq_of_length (by omega)).symm
          rw [hqpd]
          exact hig'
        · have hpdq : pre ++ [d] <+: q := by
            rcases List.prefix_or_prefix_of_prefix hq2 hpre1 with h | h
            · exfalso
              have hle := h.length_le
              omega
            · exact h
          exact hanc1 q hpdq hq2 (fun he => hqd (by rw [he]; exact hplen)) hq4
    · exact scanDirs_clean root gl rest pre p hrest

end

/-- C8: a directory matched as ignored is never descended into — every
produced artifact comes from a scanned path whose relative path it
renders, and no strictly intermediate ancestor directory of that path is
marked ignored by the matcher (each was tested before descent). -/
theorem c8_ignored_dirs_pruned (root gitignoreLines out : List String)
    (fs : List String → FsFile) (t : FsTree) (a : FileArtifact)
    (ha : a ∈ collectArtifacts fs root (filesToProcess root gitignoreLines out t)) :
    ∃ p, p ∈ scanList root gitignoreLines t ∧ a.relative_path = relString root p ∧
      ∀ q, root <+: q → q <+: p → q ≠ root → q ≠ p →
        should_ignore root gitignoreLines q = false := by
  rcases List.mem_filterMap.mp ha with ⟨p, hpmem, hproc⟩
  have hpscan : p ∈ scanList root gitignoreLines t := (List.mem_filter.mp hpmem).1
  refine ⟨p, hpscan, process_some_relpath p root (fs p) a hproc, ?_⟩
  exact (scanAux_clean root gitignoreLines t root p hpscan).2.2

theorem c8_ignored_dirs_pruned_witness :
    ∃ p, p ∈ scanList ["r"] [] (.node [("src", .node [] ["main.py"])] []) ∧
      (FileArtifact.mk ["r", "src", "main.py"] "src/main.py" ".py" "python" 5 2 "a\nb" 0
          false).relative_path = relString ["r"] p ∧
      ∀ q, ["r"] <+: q → q <+: p → q ≠ ["r"] → q ≠ p →
        should_ignore ["r"] [] q = false :=
  c8_ignored_dirs_pruned ["r"] [] ["r", "out.md"]
    (fun _ => ⟨some 5, some "a\nb".data, none⟩)
    (.node [("src", .node [] ["main.py"])] [])
    (FileArtifact.mk ["r", "src", "main.py"] "src/main.py" ".py" "python" 5 2 "a\nb" 0 false)
    (by decide)

end DeepContext
